import Mathlib

/-!
Verification of the pycfg control-flow-graph builder (`src/pycfg/cfg.py`).

The Python code is shallowly embedded as executable Lean functions:

* a Python `Block` namedtuple `(creator, next_offset, parent)` forms a linked
  chain; a chain is embedded as a `List Block` whose head is the block itself
  and whose tail is the parent chain.  A `BlockStackView` is likewise just the
  chain hanging off its `last_block`, so views are embedded as `List Block`
  (head = top of stack, `[]` = empty view / `None` last block).  Equality of
  Python `Block` namedtuples (which is structural and includes the whole
  parent chain) is exactly list equality under this embedding.  A value that
  in Python is "a `Block` or `None`" (e.g. the result of `first_loop`) is
  embedded as the corresponding chain, with `[]` playing the role of `None`.
* `dis.Instruction` is embedded with the four fields the builder reads:
  `opname`, `offset`, `argval` and `is_jump_target`.
* the path-metadata dict with keys `'has return'`, `'has except'` and
  `'broken loops'` is embedded as a structure with those three fields
  (a missing key read through `dict.get` with a default is the same as the
  default field value).
* fallible code (raising `IndexError`, `ValueError`, `AssertionError`, or
  computing with a `None` where a list/`Block` is required, which raises
  `TypeError`/`AttributeError` in Python) is embedded in `Option`: `none`
  means the construction run fails with an exception.

The repository file `src/pycfg/ops.py` (providing `ops.boring_opnames` and
`ops.jumps`) is not part of the sources; those two opcode sets are modelled
from the spec, see `boring_opnames` and `jumps` below.
-/

set_option autoImplicit false

namespace PyCFG

/-- Embedding of the fields of `dis.Instruction` read by the builder. -/
structure Instruction where
  opname : String
  offset : Int
  argval : Int
  is_jump_target : Bool
deriving DecidableEq, Repr

/-- Embedding of the Python `Block` namedtuple minus its `parent` field;
the parent chain is represented by the tail of the `List Block` in which a
block occurs (see the module docstring). -/
structure Block where
  creator : String
  next_offset : Int
deriving DecidableEq, Repr

/-- Embedding of the path-metadata dict (`'has return'`, `'has except'`,
`'broken loops'`).  The broken-loop entries are Python `Block`-or-`None`
references, embedded as chains (`[]` = `None`). -/
structure PathMetadata where
  has_return : Bool
  has_except : Bool
  broken_loops : List (List Block)
deriving DecidableEq, Repr

/-- Embedding of `BlockStackView.pop_until`: discard blocks from the top while
their `next_offset` is `≤ offset`. -/
def pop_until (offset : Int) : List Block → List Block
  | [] => []
  | b :: rest => if b.next_offset ≤ offset then pop_until offset rest else b :: rest

/-- Embedding of `BlockStackView._first_X`: the first block (from the top)
whose creator is `X`, as a chain; `[]` when there is none (`None` in Python). -/
def firstX (X : String) : List Block → List Block
  | [] => []
  | b :: rest => if b.creator = X then b :: rest else firstX X rest

/-- Opcode set from `exceptional_jump_targets` in `cfg.py`. -/
def exception_handling_ops : List String :=
  ["SETUP_EXCEPT", "SETUP_FINALLY", "SETUP_WITH"]

/-- Embedding of `exceptional_jump_targets` from `cfg.py`.  The Python
function has no `else` for an unrecognized creator and then falls through
returning `None`; that branch is `none` here and every recognized branch is
`some`. -/
def exceptional_jump_targets (offset : Int) : List Block → Option (List Int)
  | [] => some []
  | inner_block :: rest =>
    if inner_block.creator ∈ exception_handling_ops then
      if offset < inner_block.next_offset then
        some [inner_block.next_offset]
      else
        exceptional_jump_targets offset rest
    else if inner_block.creator = "SETUP_LOOP" then
      exceptional_jump_targets offset rest
    else
      none

/-- Modelled from the spec: the closed set of sequential ("boring") opcodes
exported by the missing repository file `ops.py` as `ops.boring_opnames`
(§4.2 "Sequential (any instruction not otherwise special-cased)"; §6 lists
the opcode classes).  The claims only depend on this set containing ordinary
straight-line opcodes and none of the special-cased ones. -/
def boring_opnames : List String :=
  ["LOAD_CONST", "LOAD_FAST", "STORE_FAST", "LOAD_GLOBAL", "LOAD_NAME",
   "STORE_NAME", "LOAD_ATTR", "STORE_ATTR", "POP_TOP", "DUP_TOP",
   "BINARY_ADD", "BINARY_SUBTRACT", "BINARY_MULTIPLY", "BINARY_POWER",
   "BINARY_TRUE_DIVIDE", "BINARY_MODULO", "COMPARE_OP", "CALL_FUNCTION",
   "GET_ITER", "UNARY_NEGATIVE", "NOP"]

/-- Modelled from the spec: the set of jump/branch opcodes exported by the
missing repository file `ops.py` as `ops.jumps` (§4.4: "if it is itself a
jump/branch instruction its own jump argument is recorded as an unreachable
target"); these are the opcodes carrying a target offset as argument. -/
def jumps : List String :=
  ["JUMP_FORWARD", "JUMP_ABSOLUTE", "POP_JUMP_IF_TRUE", "POP_JUMP_IF_FALSE",
   "JUMP_IF_TRUE_OR_POP", "JUMP_IF_FALSE_OR_POP", "FOR_ITER", "CONTINUE_LOOP",
   "SETUP_LOOP", "SETUP_EXCEPT", "SETUP_FINALLY", "SETUP_WITH"]

/-- Membership test in the set `{'SETUP_FINALLY', 'SETUP_WITH'}` used by the
`END_FINALLY` branch of `compute_jump_targets`. -/
def finally_or_with (b : Block) : Bool :=
  b.creator = "SETUP_FINALLY" || b.creator = "SETUP_WITH"

/-- Embedding of the `RETURN_VALUE` scan loop in `compute_jump_targets`:
walk the view from the top; stop at the first finally/with block whose
`next_offset` is strictly beyond the instruction offset. -/
def return_scan (offset : Int) : List Block → List Int
  | [] => []
  | b :: rest =>
    if (b.creator = "SETUP_FINALLY" ∨ b.creator = "SETUP_WITH") ∧ offset < b.next_offset
    then [b.next_offset]
    else return_scan offset rest

/-- Embedding of `compute_jump_targets` from `cfg.py`.  `none` embeds the
branches where the Python code raises (`IndexError` on `blockstack_view[0]`
of an empty view, `ValueError` on an unhandled opcode) or computes with the
`None` fall-through of `exceptional_jump_targets` / a `None` `first_loop`
(which makes the run die with `TypeError`/`AttributeError`). -/
def compute_jump_targets (instr : Instruction) (path_metadata : PathMetadata)
    (blockstack_view : List Block) : Option (List Int × PathMetadata × List Block) :=
  let opname := instr.opname
  let offset := instr.offset
  let next_offset := instr.offset + 2
  if opname ∈ boring_opnames then
    match exceptional_jump_targets offset blockstack_view with
    | none => none
    | some ets => some (ets ++ [next_offset], path_metadata, blockstack_view)
  else if opname = "JUMP_FORWARD" ∨ opname = "JUMP_ABSOLUTE" then
    some ([instr.argval], path_metadata, blockstack_view)
  else if opname ∈ ["POP_JUMP_IF_TRUE", "POP_JUMP_IF_FALSE",
                    "JUMP_IF_TRUE_OR_POP", "JUMP_IF_FALSE_OR_POP", "FOR_ITER"] then
    some ([next_offset, instr.argval], path_metadata, blockstack_view)
  else if opname = "WITH_CLEANUP_START" ∨ opname = "WITH_CLEANUP_FINISH" then
    some ([next_offset], path_metadata, blockstack_view)
  else if opname = "POP_EXCEPT" then
    some ([next_offset], path_metadata, blockstack_view)
  else if opname = "BREAK_LOOP" then
    match blockstack_view with
    | [] => none
    | inner_block :: _ =>
      let md : PathMetadata :=
        { path_metadata with
          broken_loops := path_metadata.broken_loops ++ [firstX "SETUP_LOOP" blockstack_view] }
      if inner_block.creator = "SETUP_LOOP" then
        some ([inner_block.next_offset], md, blockstack_view)
      else
        match exceptional_jump_targets offset blockstack_view with
        | none => none
        | some ets => some (ets, md, blockstack_view)
  else if opname = "POP_BLOCK" then
    some ([next_offset], path_metadata, blockstack_view)
  else if opname = "CONTINUE_LOOP" then
    match blockstack_view with
    | [] => none
    | inner_block :: _ =>
      if inner_block.creator = "SETUP_LOOP" then
        some ([instr.argval], path_metadata, blockstack_view)
      else
        match exceptional_jump_targets offset blockstack_view with
        | none => none
        | some ets => some (ets, path_metadata, blockstack_view)
  else if opname = "RETURN_VALUE" then
    let scanned := return_scan offset blockstack_view
    some ((if scanned = [] then [-1] else scanned),
          { path_metadata with has_return := true }, blockstack_view)
  else if opname ∈ ["SETUP_FINALLY", "SETUP_EXCEPT", "SETUP_LOOP", "SETUP_WITH"] then
    some ([next_offset], path_metadata,
          { creator := opname, next_offset := instr.argval } :: blockstack_view)
  else if opname = "END_FINALLY" then
    match exceptional_jump_targets offset blockstack_view with
    | none => none
    | some ets =>
      let ts1 := next_offset :: ets
      let finally_block_on_stack := blockstack_view.any finally_or_with
      let ts2 := if path_metadata.has_return && !finally_block_on_stack then ts1 ++ [-1] else ts1
      let first_loop := firstX "SETUP_LOOP" blockstack_view
      if first_loop ∈ path_metadata.broken_loops then
        match first_loop with
        | [] => none
        | b :: _ => some (ts2 ++ [b.next_offset], path_metadata, blockstack_view)
      else
        some (ts2, path_metadata, blockstack_view)
  else if opname = "RAISE_VARARGS" then
    match exceptional_jump_targets offset blockstack_view with
    | none => none
    | some ets =>
      some (next_offset :: ets, { path_metadata with has_except := true }, blockstack_view)
  else
    none

/-- Embedding of a `BasicBlock` node of the graph. -/
structure BasicBlock where
  instr : Instruction
  successors : List Int
  blockstack_view : List Block
  path_metadata : PathMetadata
deriving DecidableEq, Repr

/-- Synthetic instruction of the function-exit sentinel node at offset `-1`. -/
def function_exit_instruction : Instruction :=
  { opname := "FUNCTION_EXIT", offset := -1, argval := 0, is_jump_target := false }

/-- Initial sentinel node (`self.basic_blocks = { -1: ... }`).  In Python its
`blockstack_view` is `None` and its metadata is `{}`; the view is never read
because the sentinel has no successors, so it is embedded as `[]`. -/
def exit_basic_block : BasicBlock :=
  { instr := function_exit_instruction, successors := [],
    blockstack_view := [], path_metadata := ⟨false, false, []⟩ }

/-- Builder state of `CFG.__init__`: the node table (in insertion order,
keyed by `instr.offset`), the reachable-offset set and the
unreachable-jump-target set (both as lists with set-membership semantics). -/
structure CFGState where
  basic_blocks : List BasicBlock
  reachable_instructions : List Int
  unreachable_jump_targets : List Int
deriving DecidableEq, Repr

/-- Builder state before the instruction loop. -/
def initState : CFGState :=
  { basic_blocks := [exit_basic_block], reachable_instructions := [0],
    unreachable_jump_targets := [] }

/-- Embedding of the nested `is_reachable`; Python's implicit `None` result
(offset unknown and not a jump target) is `false`, as both mean "skip". -/
def is_reachable (st : CFGState) (instr : Instruction) : Bool :=
  if instr.offset ∈ st.reachable_instructions then true
  else if instr.is_jump_target then
    if instr.offset ∈ st.unreachable_jump_targets then false else true
  else false

/-- Embedding of `predecessors_of`: all nodes listing `offset` as a
successor, in node-table order. -/
def predecessors_of (st : CFGState) (offset : Int) : List BasicBlock :=
  st.basic_blocks.filter (fun bb => offset ∈ bb.successors)

/-- Predecessors that pass the `is_reachable` filter of
`join_blockstack_views`. -/
def reachable_preds (st : CFGState) (offset : Int) : List BasicBlock :=
  (predecessors_of st offset).filter (fun bb => is_reachable st bb.instr)

/-- Embedding of `join_blockstack_views`.  The Python `blocks` set of
`last_block` references is the deduplicated list of popped views (a
`last_block` and its view are the same chain under this embedding); the
`assert len(blocks) <= 1` failure is `none`, otherwise the joined view is the
unique element or the empty view. -/
def join_blockstack_views (st : CFGState) (offset : Int) : Option (List Block) :=
  let blocks :=
    ((reachable_preds st offset).map (fun bb => pop_until offset bb.blockstack_view)).dedup
  if blocks.length ≤ 1 then some (blocks.headD []) else none

/-- Embedding of `join_path_metadata`: union of flags and concatenation of
broken-loop lists over all predecessors, in node-table order. -/
def join_path_metadata (st : CFGState) (offset : Int) : PathMetadata :=
  let preds := predecessors_of st offset
  { has_return := preds.any (fun bb => bb.path_metadata.has_return),
    has_except := preds.any (fun bb => bb.path_metadata.has_except),
    broken_loops := (preds.map (fun bb => bb.path_metadata.broken_loops)).flatten }

/-- Dict assignment `self.basic_blocks[bb.offset] = bb`: overwrite in place
when the key exists, append otherwise. -/
def insertBB (bbs : List BasicBlock) (bb : BasicBlock) : List BasicBlock :=
  if bbs.any (fun b => b.instr.offset = bb.instr.offset) then
    bbs.map (fun b => if b.instr.offset = bb.instr.offset then bb else b)
  else bbs ++ [bb]

/-- Freshly created node, before its successors/view/metadata are assigned. -/
def mkBB (instr : Instruction) : BasicBlock :=
  { instr := instr, successors := [], blockstack_view := [],
    path_metadata := ⟨false, false, []⟩ }

/-- Builder state right after `self.basic_blocks[bb.offset] = bb` entered the
fresh (still successor-less) node for `instr`, before the joins run. -/
def with_new_bb (st : CFGState) (instr : Instruction) : CFGState :=
  { st with basic_blocks := insertBB st.basic_blocks (mkBB instr) }

/-- One iteration of the instruction loop of `CFG.__init__`.  A skipped
instruction records its jump argument when it is a jump; a processed one is
entered in the node table, the predecessor joins run, the resolver runs, the
successors are added to the reachable set and the node is updated in place. -/
def cfg_step (st : CFGState) (instr : Instruction) : Option CFGState :=
  if is_reachable st instr then
    match join_blockstack_views (with_new_bb st instr) instr.offset with
    | none => none
    | some view =>
      match compute_jump_targets instr (join_path_metadata (with_new_bb st instr) instr.offset) view with
      | none => none
      | some (succs, md, view') =>
        some { basic_blocks := insertBB (with_new_bb st instr).basic_blocks
                 { instr := instr, successors := succs,
                   blockstack_view := view', path_metadata := md },
               reachable_instructions := (with_new_bb st instr).reachable_instructions ++ succs,
               unreachable_jump_targets := (with_new_bb st instr).unreachable_jump_targets }
  else if instr.opname ∈ jumps then
    some { st with unreachable_jump_targets := st.unreachable_jump_targets ++ [instr.argval] }
  else
    some st

/-- The full instruction loop of `CFG.__init__` over the decoded bytecode. -/
def run (l : List Instruction) (st : CFGState) : Option CFGState :=
  match l with
  | [] => some st
  | i :: rest =>
    match cfg_step st i with
    | none => none
    | some st' => run rest st'

/-- Predicate of the `RETURN_VALUE` scan: a finally/with record whose handler
entry lies strictly after the given offset. -/
def intercepts (offset : Int) (b : Block) : Prop :=
  (b.creator = "SETUP_FINALLY" ∨ b.creator = "SETUP_WITH") ∧ offset < b.next_offset

instance (offset : Int) (b : Block) : Decidable (intercepts offset b) := by
  unfold intercepts
  infer_instance

/-- Normal-exit offset of a `Block`-or-`None` chain reference: the singleton
`next_offset` of the referenced block, or nothing for `None`. -/
def chain_exit : List Block → List Int
  | [] => []
  | b :: _ => [b.next_offset]

/-- Relational version of `join_blockstack_views` in which the joined view is
an arbitrary member of the deduplicated predecessor-view set (the Python
`set.pop()` picks an unspecified element), subject to the asserted
cardinality bound; the empty set joins to the empty view. -/
def join_rel (st : CFGState) (offset : Int) (v : List Block) : Prop :=
  let blocks :=
    ((reachable_preds st offset).map (fun bb => pop_until offset bb.blockstack_view)).dedup
  blocks.length ≤ 1 ∧ ((blocks = [] ∧ v = []) ∨ v ∈ blocks)

/-- Relational builder step: `cfg_step` with the joined view replaced by any
`join_rel`-valid choice; the skip branches are unchanged. -/
def step_rel (instr : Instruction) (st st' : CFGState) : Prop :=
  if is_reachable st instr then
    ∃ view succs md view',
      join_rel (with_new_bb st instr) instr.offset view
      ∧ compute_jump_targets instr (join_path_metadata (with_new_bb st instr) instr.offset) view
          = some (succs, md, view')
      ∧ st' = { basic_blocks := insertBB (with_new_bb st instr).basic_blocks
                  { instr := instr, successors := succs,
                    blockstack_view := view', path_metadata := md },
                reachable_instructions := (with_new_bb st instr).reachable_instructions ++ succs,
                unreachable_jump_targets := (with_new_bb st instr).unreachable_jump_targets }
  else if instr.opname ∈ jumps then
    st' = { st with unreachable_jump_targets := st.unreachable_jump_targets ++ [instr.argval] }
  else
    st' = st

/-- Relational instruction loop. -/
def run_rel : List Instruction → CFGState → CFGState → Prop
  | [], st, st' => st' = st
  | i :: rest, st, st'' => ∃ st', step_rel i st st' ∧ run_rel rest st' st''

/-- Final state of the builder on the single-instruction program
`[RETURN_VALUE at 0]`, used to witness the determinism theorem. -/
def ret_final_state : CFGState :=
  { basic_blocks :=
      [exit_basic_block,
       { instr := ⟨"RETURN_VALUE", 0, 0, false⟩, successors := [-1],
         blockstack_view := [], path_metadata := ⟨true, false, []⟩ }],
    reachable_instructions := [0, -1],
    unreachable_jump_targets := [] }

/-- Invariant: every successor offset recorded on any node is in the
reachable set. -/
def SuccsReachable (st : CFGState) : Prop :=
  ∀ bb ∈ st.basic_blocks, ∀ t ∈ bb.successors, t ∈ st.reachable_instructions

/-- C1: case equations of the exceptional-target helper: empty view gives the
empty list; a topmost loop-scope record recurses on the popped view; a topmost
except/finally/with record gives exactly its handler-entry offset when the
given offset precedes it, and otherwise recurses on the popped view. -/
theorem exceptional_targets_cases (offset : Int) (b : Block) (rest : List Block) :
    exceptional_jump_targets offset [] = some []
    ∧ (b.creator = "SETUP_LOOP" →
        exceptional_jump_targets offset (b :: rest) = exceptional_jump_targets offset rest)
    ∧ (b.creator ∈ exception_handling_ops → offset < b.next_offset →
        exceptional_jump_targets offset (b :: rest) = some [b.next_offset])
    ∧ (b.creator ∈ exception_handling_ops → ¬ offset < b.next_offset →
        exceptional_jump_targets offset (b :: rest) = exceptional_jump_targets offset rest) := by
  refine ⟨rfl, ?_, ?_, ?_⟩
  · intro h
    simp [exceptional_jump_targets, h, exception_handling_ops]
  · intro h1 h2
    simp [exceptional_jump_targets, h1, h2]
  · intro h1 h2
    simp [exceptional_jump_targets, h1, h2]

theorem exceptional_targets_cases_witness :
    exceptional_jump_targets 4 [] = some []
    ∧ exceptional_jump_targets 4 [⟨"SETUP_LOOP", 20⟩, ⟨"SETUP_FINALLY", 10⟩]
        = exceptional_jump_targets 4 [⟨"SETUP_FINALLY", 10⟩]
    ∧ exceptional_jump_targets 4 [⟨"SETUP_FINALLY", 10⟩] = some [10]
    ∧ exceptional_jump_targets 12 [⟨"SETUP_FINALLY", 10⟩] = exceptional_jump_targets 12 [] :=
  ⟨(exceptional_targets_cases 4 ⟨"SETUP_LOOP", 20⟩ []).1,
   (exceptional_targets_cases 4 ⟨"SETUP_LOOP", 20⟩ [⟨"SETUP_FINALLY", 10⟩]).2.1 rfl,
   (exceptional_targets_cases 4 ⟨"SETUP_FINALLY", 10⟩ []).2.2.1 (by decide) (by decide),
   (exceptional_targets_cases 12 ⟨"SETUP_FINALLY", 10⟩ []).2.2.2 (by decide) (by decide)⟩

/-- C10: on any view all of whose records were created by one of the four
scope-entry opcodes (the only creators the builder pushes), the
exceptional-target helper never reaches the unrecognized-creator fall-through:
it always returns a list. -/
theorem exceptional_targets_total (offset : Int) (v : List Block)
    (h : ∀ b ∈ v, b.creator ∈ ["SETUP_LOOP", "SETUP_EXCEPT", "SETUP_FINALLY", "SETUP_WITH"]) :
    ∃ ts, exceptional_jump_targets offset v = some ts := by
  induction v with
  | nil => exact ⟨[], rfl⟩
  | cons b rest ih =>
    have hb := h b (List.mem_cons_self b rest)
    have hrest := fun x hx => h x (List.mem_cons_of_mem b hx)
    obtain ⟨ts, hts⟩ := ih hrest
    simp only [List.mem_cons, List.mem_singleton, List.not_mem_nil, or_false] at hb
    rcases hb with hb | hb | hb | hb
    · exact ⟨ts, by simp [exceptional_jump_targets, hb, hts, exception_handling_ops]⟩
    · by_cases hlt : offset < b.next_offset
      · exact ⟨[b.next_offset], by simp [exceptional_jump_targets, hb, hlt, exception_handling_ops]⟩
      · exact ⟨ts, by simp [exceptional_jump_targets, hb, hlt, hts, exception_handling_ops]⟩
    · by_cases hlt : offset < b.next_offset
      · exact ⟨[b.next_offset], by simp [exceptional_jump_targets, hb, hlt, exception_handling_ops]⟩
      · exact ⟨ts, by simp [exceptional_jump_targets, hb, hlt, hts, exception_handling_ops]⟩
    · by_cases hlt : offset < b.next_offset
      · exact ⟨[b.next_offset], by simp [exceptional_jump_targets, hb, hlt, exception_handling_ops]⟩
      · exact ⟨ts, by simp [exceptional_jump_targets, hb, hlt, hts, exception_handling_ops]⟩

theorem exceptional_targets_total_witness :
    (∀ b ∈ [Block.mk "SETUP_WITH" 30, Block.mk "SETUP_LOOP" 40],
      b.creator ∈ ["SETUP_LOOP", "SETUP_EXCEPT", "SETUP_FINALLY", "SETUP_WITH"])
    ∧ ∃ ts, exceptional_jump_targets 6 [Block.mk "SETUP_WITH" 30, Block.mk "SETUP_LOOP" 40] = some ts :=
  ⟨by decide, exceptional_targets_total 6 _ (by decide)⟩

theorem return_scan_spec (offset : Int) (v : List Block) :
    (return_scan offset v = [] ∧ ∀ b ∈ v, ¬ intercepts offset b)
    ∨ (∃ pre b post, v = pre ++ b :: post
        ∧ intercepts offset b
        ∧ return_scan offset v = [b.next_offset]
        ∧ ∀ b' ∈ pre, ¬ intercepts offset b') := by
  induction v with
  | nil => exact Or.inl ⟨rfl, by simp⟩
  | cons b rest ih =>
    by_cases hb : intercepts offset b
    · refine Or.inr ⟨[], b, rest, by simp, hb, ?_, by simp⟩
      simp [return_scan, intercepts] at hb ⊢
      simp [hb]
    · have hstep : return_scan offset (b :: rest) = return_scan offset rest := by
        simp [return_scan, intercepts] at hb ⊢
        intro h1 h2
        exact absurd h2 (not_lt.mpr (hb h1))
      rcases ih with ⟨h1, h2⟩ | ⟨pre, c, post, hv, hc, hscan, hpre⟩
      · refine Or.inl ⟨by rw [hstep, h1], ?_⟩
        intro x hx
        rcases List.mem_cons.mp hx with rfl | hx
        · exact hb
        · exact h2 x hx
      · refine Or.inr ⟨b :: pre, c, post, by simp [hv], hc, by rw [hstep, hscan], ?_⟩
        intro x hx
        rcases List.mem_cons.mp hx with rfl | hx
        · exact hb
        · exact hpre x hx

/-- C2: the resolver at a return instruction returns exactly one successor:
the handler entry of the topmost finally/with record whose entry offset lies
strictly after the instruction, or the function-exit sentinel `-1` when no
such record exists; the metadata gets the return flag set and the view is
propagated unchanged. -/
theorem return_value_spec (instr : Instruction) (md : PathMetadata) (v : List Block)
    (h : instr.opname = "RETURN_VALUE") :
    ∃ ts, compute_jump_targets instr md v
        = some (ts, { md with has_return := true }, v)
      ∧ ((∃ pre b post, v = pre ++ b :: post
            ∧ intercepts instr.offset b ∧ ts = [b.next_offset]
            ∧ ∀ b' ∈ pre, ¬ intercepts instr.offset b')
         ∨ (ts = [-1] ∧ ∀ b ∈ v, ¬ intercepts instr.offset b)) := by
  have hmain : compute_jump_targets instr md v
      = some ((if return_scan instr.offset v = [] then [-1] else return_scan instr.offset v),
              { md with has_return := true }, v) := by
    simp [compute_jump_targets, h, boring_opnames]
  rcases return_scan_spec instr.offset v with ⟨h1, h2⟩ | ⟨pre, b, post, hv, hb, hscan, hpre⟩
  · exact ⟨[-1], by rw [hmain, h1]; simp, Or.inr ⟨rfl, h2⟩⟩
  · refine ⟨[b.next_offset], ?_, Or.inl ⟨pre, b, post, hv, hb, rfl, hpre⟩⟩
    rw [hmain, hscan]
    simp

theorem return_value_spec_witness :
    ∃ ts, compute_jump_targets ⟨"RETURN_VALUE", 4, 0, false⟩ ⟨false, false, []⟩
            [⟨"SETUP_LOOP", 20⟩, ⟨"SETUP_FINALLY", 10⟩]
        = some (ts, { PathMetadata.mk false false [] with has_return := true },
                [⟨"SETUP_LOOP", 20⟩, ⟨"SETUP_FINALLY", 10⟩])
      ∧ ((∃ pre b post,
            ([⟨"SETUP_LOOP", 20⟩, ⟨"SETUP_FINALLY", 10⟩] : List Block) = pre ++ b :: post
            ∧ intercepts 4 b ∧ ts = [b.next_offset]
            ∧ ∀ b' ∈ pre, ¬ intercepts 4 b')
         ∨ (ts = [-1] ∧ ∀ b ∈ ([⟨"SETUP_LOOP", 20⟩, ⟨"SETUP_FINALLY", 10⟩] : List Block),
              ¬ intercepts 4 b)) :=
  return_value_spec ⟨"RETURN_VALUE", 4, 0, false⟩ ⟨false, false, []⟩
    [⟨"SETUP_LOOP", 20⟩, ⟨"SETUP_FINALLY", 10⟩] rfl

theorem any_finally_iff (v : List Block) :
    (v.any finally_or_with = false)
    ↔ (∀ b ∈ v, ¬(b.creator = "SETUP_FINALLY" ∨ b.creator = "SETUP_WITH")) := by
  simp [List.any_eq_false, finally_or_with]

/-- C3: successors of an end-of-handler instruction: the next offset and the
exceptional targets of the current view, then `-1` exactly when a return was
observed and no finally/with record remains on the view, then the exit offset
of the nearest enclosing loop record exactly when that record is in the
incoming broken-loop set (the view handed to the resolver at an end-of-handler
is the stack with this handler's own record already removed by the join step's
pop-until). -/
theorem compute_end_finally_dispatch (instr : Instruction) (md : PathMetadata)
    (v : List Block) (h : instr.opname = "END_FINALLY") :
    compute_jump_targets instr md v
      = (match exceptional_jump_targets instr.offset v with
         | none => none
         | some ets =>
           let ts1 := (instr.offset + 2) :: ets
           let finally_block_on_stack := v.any finally_or_with
           let ts2 := if md.has_return && !finally_block_on_stack then ts1 ++ [-1] else ts1
           let first_loop := firstX "SETUP_LOOP" v
           if first_loop ∈ md.broken_loops then
             match first_loop with
             | [] => none
             | b :: _ => some (ts2 ++ [b.next_offset], md, v)
           else
             some (ts2, md, v)) := by
  simp [compute_jump_targets, h, boring_opnames]

theorem end_finally_targets (instr : Instruction) (md : PathMetadata) (v : List Block)
    (h : instr.opname = "END_FINALLY")
    (ets : List Int) (hets : exceptional_jump_targets instr.offset v = some ets)
    (hloop : firstX "SETUP_LOOP" v ∈ md.broken_loops → firstX "SETUP_LOOP" v ≠ []) :
    compute_jump_targets instr md v
      = some ((((instr.offset + 2) :: ets)
          ++ (if md.has_return = true
                ∧ (∀ b ∈ v, ¬(b.creator = "SETUP_FINALLY" ∨ b.creator = "SETUP_WITH"))
              then [-1] else []))
          ++ (if firstX "SETUP_LOOP" v ∈ md.broken_loops
              then chain_exit (firstX "SETUP_LOOP" v) else []),
          md, v) := by
  rw [compute_end_finally_dispatch instr md v h, hets]
  dsimp only
  cases hany : v.any finally_or_with with
  | false =>
    have hfw := (any_finally_iff v).mp hany
    cases hret : md.has_return with
    | true =>
      rw [if_pos (show (true && !false) = true from rfl),
          if_pos (show true = true ∧ _ from ⟨rfl, hfw⟩)]
      by_cases hbl : firstX "SETUP_LOOP" v ∈ md.broken_loops
      · obtain ⟨b, rest, hb⟩ : ∃ b rest, firstX "SETUP_LOOP" v = b :: rest := by
          rcases hfl : firstX "SETUP_LOOP" v with _ | ⟨b, rest⟩
          · exact absurd hfl (hloop hbl)
          · exact ⟨b, rest, rfl⟩
        rw [if_pos hbl, if_pos hbl, hb]
        simp [chain_exit]
      · rw [if_neg hbl, if_neg hbl]
        simp
    | false =>
      rw [if_neg (show ¬((false && !false) = true) from by decide),
          if_neg (show ¬(false = true ∧ _) from fun hc => by exact absurd hc.1 (by decide))]
      by_cases hbl : firstX "SETUP_LOOP" v ∈ md.broken_loops
      · obtain ⟨b, rest, hb⟩ : ∃ b rest, firstX "SETUP_LOOP" v = b :: rest := by
          rcases hfl : firstX "SETUP_LOOP" v with _ | ⟨b, rest⟩
          · exact absurd hfl (hloop hbl)
          · exact ⟨b, rest, rfl⟩
        rw [if_pos hbl, if_pos hbl, hb]
        simp [chain_exit]
      · rw [if_neg hbl, if_neg hbl]
        simp
  | true =>
    have hfw : ¬ ∀ b ∈ v, ¬(b.creator = "SETUP_FINALLY" ∨ b.creator = "SETUP_WITH") := by
      intro hfw
      rw [(any_finally_iff v).mpr hfw] at hany
      exact Bool.false_ne_true hany
    rw [if_neg (show ¬((md.has_return && !true) = true) from by simp),
        if_neg (show ¬(md.has_return = true ∧ _) from fun hc => hfw hc.2)]
    by_cases hbl : firstX "SETUP_LOOP" v ∈ md.broken_loops
    · obtain ⟨b, rest, hb⟩ : ∃ b rest, firstX "SETUP_LOOP" v = b :: rest := by
        rcases hfl : firstX "SETUP_LOOP" v with _ | ⟨b, rest⟩
        · exact absurd hfl (hloop hbl)
        · exact ⟨b, rest, rfl⟩
      rw [if_pos hbl, if_pos hbl, hb]
      simp [chain_exit]
    · rw [if_neg hbl, if_neg hbl]
      simp

theorem end_finally_targets_witness :
    compute_jump_targets ⟨"END_FINALLY", 14, 0, false⟩
        ⟨true, false, [[⟨"SETUP_LOOP", 30⟩]]⟩ [⟨"SETUP_LOOP", 30⟩]
      = some ([16, -1, 30], ⟨true, false, [[⟨"SETUP_LOOP", 30⟩]]⟩,
              [⟨"SETUP_LOOP", 30⟩]) := by
  have h := end_finally_targets ⟨"END_FINALLY", 14, 0, false⟩
    ⟨true, false, [[⟨"SETUP_LOOP", 30⟩]]⟩ [⟨"SETUP_LOOP", 30⟩] rfl [] (by decide) (by decide)
  rw [h]
  decide

theorem pop_until_of_top_gt (offset : Int) (v : List Block)
    (h : ∀ b ∈ v, offset < b.next_offset) : pop_until offset v = v := by
  cases v with
  | nil => rfl
  | cons b rest =>
    have hb := h b (List.mem_cons_self b rest)
    simp [pop_until, not_le.mpr hb]

theorem end_finally_view_aux (instr : Instruction) (md : PathMetadata) (v : List Block)
    (h : instr.opname = "END_FINALLY") (ts : List Int) (md' : PathMetadata) (v' : List Block)
    (hc : compute_jump_targets instr md v = some (ts, md', v')) : v' = v := by
  rw [compute_end_finally_dispatch instr md v h] at hc
  rcases hejt : exceptional_jump_targets instr.offset v with _ | ets <;> rw [hejt] at hc
  · simp at hc
  · dsimp only at hc
    split at hc
    · split at hc
      · simp at hc
      · simp only [Option.some.injEq, Prod.mk.injEq] at hc
        exact hc.2.2.symm
    · simp only [Option.some.injEq, Prod.mk.injEq] at hc
      exact hc.2.2.symm

/-- C4: at an end-of-handler instruction whose handler-scope record sits on
top of the incoming view (its handler entry is at or before the instruction,
the records below are all exited later), the join step's pop-until strips
exactly that record, and the view the resolver propagates onward is the
record's parent chain: the stack state in effect before the record was
pushed. -/
theorem end_finally_propagated_view (instr : Instruction) (md : PathMetadata)
    (hrec : Block) (rest : List Block)
    (hop : instr.opname = "END_FINALLY")
    (hpopped : hrec.next_offset ≤ instr.offset)
    (hrest : ∀ b ∈ rest, instr.offset < b.next_offset) :
    pop_until instr.offset (hrec :: rest) = rest
    ∧ ∀ ts md' v',
        compute_jump_targets instr md (pop_until instr.offset (hrec :: rest)) = some (ts, md', v')
        → v' = rest := by
  have hpop : pop_until instr.offset (hrec :: rest) = rest := by
    simp [pop_until, hpopped, pop_until_of_top_gt instr.offset rest hrest]
  refine ⟨hpop, ?_⟩
  rw [hpop]
  intro ts md' v' hc
  exact end_finally_view_aux instr md rest hop ts md' v' hc

theorem end_finally_propagated_view_witness :
    (pop_until 14 [⟨"SETUP_FINALLY", 10⟩, ⟨"SETUP_LOOP", 30⟩] = [⟨"SETUP_LOOP", 30⟩]
    ∧ ∀ ts md' v',
        compute_jump_targets ⟨"END_FINALLY", 14, 0, false⟩ ⟨true, false, []⟩
            (pop_until 14 [⟨"SETUP_FINALLY", 10⟩, ⟨"SETUP_LOOP", 30⟩]) = some (ts, md', v')
        → v' = [⟨"SETUP_LOOP", 30⟩])
    ∧ compute_jump_targets ⟨"END_FINALLY", 14, 0, false⟩ ⟨true, false, []⟩
        (pop_until 14 [⟨"SETUP_FINALLY", 10⟩, ⟨"SETUP_LOOP", 30⟩])
        = some ([16, -1], ⟨true, false, []⟩, [⟨"SETUP_LOOP", 30⟩]) :=
  ⟨end_finally_propagated_view ⟨"END_FINALLY", 14, 0, false⟩ ⟨true, false, []⟩
     ⟨"SETUP_FINALLY", 10⟩ [⟨"SETUP_LOOP", 30⟩] rfl (by decide) (by decide),
   by decide⟩

/-- C5 counterexample: at a loop-break whose innermost record is the loop
scope, the resolver's returned view still carries the loop record on top: it
is not popped there (the input view is returned unchanged and is non-empty,
while the claim requires the record to be removed). -/
theorem break_loop_view_not_popped :
    compute_jump_targets ⟨"BREAK_LOOP", 4, 0, false⟩ ⟨false, false, []⟩ [⟨"SETUP_LOOP", 8⟩]
      = some ([8], ⟨false, false, [[⟨"SETUP_LOOP", 8⟩]]⟩, [⟨"SETUP_LOOP", 8⟩])
    ∧ ([⟨"SETUP_LOOP", 8⟩] : List Block) ≠ ([] : List Block) := by
  exact ⟨by decide, by decide⟩

/-- C5 amended: at a loop-break on a non-empty view the nearest enclosing
loop record is appended to the broken-loop set; if the innermost record is a
loop scope the single successor is its exit offset and the resolver returns
the view unchanged — the loop record is only removed by the successor's
join-step pop-until, whose cutoff at the loop's exit offset strips it; if the
innermost record is not a loop scope the successors are exactly the
exceptional targets of the current view. -/
theorem break_loop_spec (instr : Instruction) (md : PathMetadata)
    (inner : Block) (rest : List Block)
    (h : instr.opname = "BREAK_LOOP") :
    (inner.creator = "SETUP_LOOP" →
      compute_jump_targets instr md (inner :: rest)
        = some ([inner.next_offset],
                { md with broken_loops :=
                    md.broken_loops ++ [firstX "SETUP_LOOP" (inner :: rest)] },
                inner :: rest)
      ∧ pop_until inner.next_offset (inner :: rest) = pop_until inner.next_offset rest)
    ∧ (inner.creator ≠ "SETUP_LOOP" →
      ∀ ets, exceptional_jump_targets instr.offset (inner :: rest) = some ets →
        compute_jump_targets instr md (inner :: rest)
          = some (ets,
                  { md with broken_loops :=
                      md.broken_loops ++ [firstX "SETUP_LOOP" (inner :: rest)] },
                  inner :: rest)) := by
  constructor
  · intro hl
    constructor
    · simp [compute_jump_targets, h, boring_opnames, hl]
    · simp [pop_until]
  · intro hl ets hets
    simp [compute_jump_targets, h, boring_opnames, hl, hets]

theorem break_loop_spec_witness :
    (compute_jump_targets ⟨"BREAK_LOOP", 4, 0, false⟩ ⟨false, false, []⟩
        [⟨"SETUP_LOOP", 8⟩]
      = some ([8],
              ⟨false, false, [firstX "SETUP_LOOP" [⟨"SETUP_LOOP", 8⟩]]⟩,
              [⟨"SETUP_LOOP", 8⟩])
      ∧ pop_until 8 [Block.mk "SETUP_LOOP" 8] = pop_until 8 [])
    ∧ compute_jump_targets ⟨"BREAK_LOOP", 4, 0, false⟩ ⟨false, false, []⟩
        [⟨"SETUP_WITH", 20⟩, ⟨"SETUP_LOOP", 8⟩]
      = some ([20],
              ⟨false, false, [firstX "SETUP_LOOP" [⟨"SETUP_WITH", 20⟩, ⟨"SETUP_LOOP", 8⟩]]⟩,
              [⟨"SETUP_WITH", 20⟩, ⟨"SETUP_LOOP", 8⟩]) :=
  ⟨(break_loop_spec ⟨"BREAK_LOOP", 4, 0, false⟩ ⟨false, false, []⟩
      ⟨"SETUP_LOOP", 8⟩ [] rfl).1 rfl,
   (break_loop_spec ⟨"BREAK_LOOP", 4, 0, false⟩ ⟨false, false, []⟩
      ⟨"SETUP_WITH", 20⟩ [⟨"SETUP_LOOP", 8⟩] rfl).2 (by decide) [20] (by decide)⟩

theorem dedup_all_eq {α : Type} [DecidableEq α] (l : List α) (w : α)
    (hne : l ≠ []) (hall : ∀ x ∈ l, x = w) : l.dedup = [w] := by
  have hw : w ∈ l := by
    rcases l with _ | ⟨a, r⟩
    · exact absurd rfl hne
    · exact (hall a (List.mem_cons_self a r)) ▸ List.mem_cons_self a r
  have hwd : w ∈ l.dedup := List.mem_dedup.mpr hw
  have hnodup := l.nodup_dedup
  have hsub : ∀ x ∈ l.dedup, x = w := fun x hx => hall x (List.mem_dedup.mp hx)
  rcases hd : l.dedup with _ | ⟨x, r⟩
  · rw [hd] at hwd
    exact absurd hwd (List.not_mem_nil w)
  · rw [hd] at hsub hnodup
    have hx := hsub x (List.mem_cons_self x r)
    subst hx
    rcases r with _ | ⟨y, t⟩
    · rfl
    · have hy := hsub y (by simp)
      rw [List.nodup_cons] at hnodup
      have : x ∈ y :: t := by
        rw [hy]
        exact List.mem_cons_self x t
      exact absurd this hnodup.1

/-- C8: the predecessor join over the reachable already-processed
predecessors of an offset: two predecessors whose views, popped to the
current offset, disagree make the join fail (the embedded `assert`); when
all popped views agree the join returns that common view, and with no
predecessors it returns the empty view.  Under the chain embedding a view
and its top record are the same value, so disagreement of tops is
disagreement of popped views. -/
theorem join_blockstack_views_spec (st : CFGState) (offset : Int) :
    (∀ bb1 ∈ reachable_preds st offset, ∀ bb2 ∈ reachable_preds st offset,
        pop_until offset bb1.blockstack_view ≠ pop_until offset bb2.blockstack_view →
        join_blockstack_views st offset = none)
    ∧ (∀ w, reachable_preds st offset ≠ [] →
        (∀ bb ∈ reachable_preds st offset, pop_until offset bb.blockstack_view = w) →
        join_blockstack_views st offset = some w)
    ∧ (reachable_preds st offset = [] → join_blockstack_views st offset = some []) := by
  refine ⟨?_, ?_, ?_⟩
  · intro bb1 h1 bb2 h2 hne
    have hm1 : pop_until offset bb1.blockstack_view
        ∈ ((reachable_preds st offset).map (fun bb => pop_until offset bb.blockstack_view)).dedup :=
      List.mem_dedup.mpr (List.mem_map_of_mem _ h1)
    have hm2 : pop_until offset bb2.blockstack_view
        ∈ ((reachable_preds st offset).map (fun bb => pop_until offset bb.blockstack_view)).dedup :=
      List.mem_dedup.mpr (List.mem_map_of_mem _ h2)
    have hlen : ¬ ((reachable_preds st offset).map
        (fun bb => pop_until offset bb.blockstack_view)).dedup.length ≤ 1 := by
      intro hle
      rcases hd : ((reachable_preds st offset).map
          (fun bb => pop_until offset bb.blockstack_view)).dedup with _ | ⟨x, r⟩
      · rw [hd] at hm1
        exact absurd hm1 (List.not_mem_nil _)
      · rcases r with _ | ⟨y, t⟩
        · rw [hd] at hm1 hm2
          simp only [List.mem_singleton] at hm1 hm2
          exact hne (hm1.trans hm2.symm)
        · rw [hd] at hle
          simp at hle
    unfold join_blockstack_views
    rw [if_neg hlen]
  · intro w hne hall
    have hmapne : (reachable_preds st offset).map
        (fun bb => pop_until offset bb.blockstack_view) ≠ [] := by
      simpa using hne
    have hmapall : ∀ x ∈ (reachable_preds st offset).map
        (fun bb => pop_until offset bb.blockstack_view), x = w := by
      intro x hx
      obtain ⟨bb, hbb, rfl⟩ := List.mem_map.mp hx
      exact hall bb hbb
    have hd := dedup_all_eq _ w hmapne hmapall
    unfold join_blockstack_views
    rw [hd]
    simp
  · intro hpred
    unfold join_blockstack_views
    rw [hpred]
    simp

theorem join_blockstack_views_spec_witness :
    (reachable_preds
        ⟨[⟨⟨"SETUP_FINALLY", 0, 10, false⟩, [2], [⟨"SETUP_FINALLY", 10⟩], ⟨false, false, []⟩⟩],
         [0, 2], []⟩ 2 ≠ [])
    ∧ join_blockstack_views
        ⟨[⟨⟨"SETUP_FINALLY", 0, 10, false⟩, [2], [⟨"SETUP_FINALLY", 10⟩], ⟨false, false, []⟩⟩],
         [0, 2], []⟩ 2 = some [⟨"SETUP_FINALLY", 10⟩] :=
  ⟨by decide,
   (join_blockstack_views_spec
      ⟨[⟨⟨"SETUP_FINALLY", 0, 10, false⟩, [2], [⟨"SETUP_FINALLY", 10⟩], ⟨false, false, []⟩⟩],
       [0, 2], []⟩ 2).2.1 [⟨"SETUP_FINALLY", 10⟩] (by decide) (by decide)⟩

theorem join_rel_func (st : CFGState) (offset : Int) (v w : List Block)
    (hv : join_rel st offset v) (hw : join_rel st offset w) : v = w := by
  obtain ⟨hle, hv⟩ := hv
  obtain ⟨-, hw⟩ := hw
  rcases hd : ((reachable_preds st offset).map
      (fun bb => pop_until offset bb.blockstack_view)).dedup with _ | ⟨x, r⟩
  · rw [hd] at hv hw
    rcases hv with ⟨-, rfl⟩ | hv
    · rcases hw with ⟨-, rfl⟩ | hw
      · rfl
      · exact absurd hw (List.not_mem_nil w)
    · exact absurd hv (List.not_mem_nil v)
  · rw [hd] at hle hv hw
    have hr : r = [] := by
      rcases r with _ | ⟨y, t⟩
      · rfl
      · simp at hle
    subst hr
    rcases hv with ⟨hc, -⟩ | hv
    · exact absurd hc (by simp)
    · rcases hw with ⟨hc, -⟩ | hw
      · exact absurd hc (by simp)
      · simp only [List.mem_singleton] at hv hw
        exact hv.trans hw.symm

theorem step_rel_func (instr : Instruction) (st st1 st2 : CFGState)
    (h1 : step_rel instr st st1) (h2 : step_rel instr st st2) : st1 = st2 := by
  unfold step_rel at h1 h2
  by_cases hr : is_reachable st instr = true
  · rw [if_pos hr] at h1 h2
    obtain ⟨v1, s1, m1, w1, hj1, hc1, he1⟩ := h1
    obtain ⟨v2, s2, m2, w2, hj2, hc2, he2⟩ := h2
    have hv : v1 = v2 := join_rel_func _ _ v1 v2 hj1 hj2
    subst hv
    rw [hc1] at hc2
    injection hc2 with hc2
    injection hc2 with hs hc2
    injection hc2 with hm hw
    subst hs; subst hm; subst hw
    rw [he1, he2]
  · rw [if_neg hr] at h1 h2
    by_cases hj : instr.opname ∈ jumps
    · rw [if_pos hj] at h1 h2
      rw [h1, h2]
    · rw [if_neg hj] at h1 h2
      rw [h1, h2]

theorem run_rel_func (l : List Instruction) (st st1 st2 : CFGState)
    (h1 : run_rel l st st1) (h2 : run_rel l st st2) : st1 = st2 := by
  induction l generalizing st with
  | nil => rw [h1, h2]
  | cons i rest ih =>
    obtain ⟨sa, hsa, hra⟩ := h1
    obtain ⟨sb, hsb, hrb⟩ := h2
    have : sa = sb := step_rel_func i st sa sb hsa hsb
    subst this
    exact ih sa hra hrb

/-- C9: graph construction is deterministic in the instruction sequence: any
two runs of the (relationally modelled, `set.pop()`-nondeterministic) builder
loop on the same sequence end in states with the same node offsets and, at
every offset, the same successor lists. -/
theorem construction_deterministic (l : List Instruction) (st1 st2 : CFGState)
    (h1 : run_rel l initState st1) (h2 : run_rel l initState st2) :
    st1.basic_blocks.map (fun bb => bb.instr.offset)
      = st2.basic_blocks.map (fun bb => bb.instr.offset)
    ∧ ∀ o : Int,
        (st1.basic_blocks.filter (fun bb => bb.instr.offset = o)).map (fun bb => bb.successors)
          = (st2.basic_blocks.filter (fun bb => bb.instr.offset = o)).map (fun bb => bb.successors) := by
  have heq : st1 = st2 := run_rel_func l initState st1 st2 h1 h2
  subst heq
  exact ⟨rfl, fun _ => rfl⟩

theorem run_rel_ret : run_rel [⟨"RETURN_VALUE", 0, 0, false⟩] initState ret_final_state := by
  refine ⟨ret_final_state, ?_, rfl⟩
  unfold step_rel
  rw [if_pos (show is_reachable initState ⟨"RETURN_VALUE", 0, 0, false⟩ = true from by decide)]
  refine ⟨[], [-1], ⟨true, false, []⟩, [], ⟨by decide, Or.inl ⟨by decide, rfl⟩⟩, by decide, by decide⟩

theorem construction_deterministic_witness :
    ret_final_state.basic_blocks.map (fun bb => bb.instr.offset)
      = ret_final_state.basic_blocks.map (fun bb => bb.instr.offset)
    ∧ ∀ o : Int,
        (ret_final_state.basic_blocks.filter (fun bb => bb.instr.offset = o)).map
            (fun bb => bb.successors)
          = (ret_final_state.basic_blocks.filter (fun bb => bb.instr.offset = o)).map
            (fun bb => bb.successors) :=
  construction_deterministic [⟨"RETURN_VALUE", 0, 0, false⟩] ret_final_state ret_final_state
    run_rel_ret run_rel_ret

theorem insertBB_mem_of_ne (l : List BasicBlock) (key bb : BasicBlock)
    (hbb : bb ∈ l) (hne : bb.instr.offset ≠ key.instr.offset) : bb ∈ insertBB l key := by
  unfold insertBB
  split
  · exact List.mem_map.mpr ⟨bb, hbb, by simp [hne]⟩
  · exact List.mem_append_left _ hbb

theorem insertBB_mem_from (l : List BasicBlock) (key bb : BasicBlock)
    (hbb : bb ∈ insertBB l key) : bb ∈ l ∨ bb = key := by
  unfold insertBB at hbb
  split at hbb
  · obtain ⟨a, ha, hab⟩ := List.mem_map.mp hbb
    by_cases hc : a.instr.offset = key.instr.offset
    · rw [if_pos hc] at hab
      exact Or.inr hab.symm
    · rw [if_neg hc] at hab
      exact Or.inl (hab ▸ ha)
  · rcases List.mem_append.mp hbb with h | h
    · exact Or.inl h
    · exact Or.inr (List.mem_singleton.mp h)

theorem insertBB_self_mem (l : List BasicBlock) (key : BasicBlock) : key ∈ insertBB l key := by
  unfold insertBB
  split
  · rename_i hany
    obtain ⟨a, ha, hak⟩ := List.any_eq_true.mp hany
    simp only [decide_eq_true_eq] at hak
    exact List.mem_map.mpr ⟨a, ha, by simp [hak]⟩
  · exact List.mem_append_right _ (List.mem_singleton.mpr rfl)

theorem cfg_step_cases (st : CFGState) (i : Instruction) (st' : CFGState)
    (h : cfg_step st i = some st') :
    (∃ succs md view',
        is_reachable st i = true
        ∧ st'.basic_blocks
            = insertBB (insertBB st.basic_blocks (mkBB i))
                { instr := i, successors := succs, blockstack_view := view',
                  path_metadata := md }
        ∧ st'.reachable_instructions = st.reachable_instructions ++ succs
        ∧ st'.unreachable_jump_targets = st.unreachable_jump_targets)
    ∨ (is_reachable st i = false
        ∧ st'.basic_blocks = st.basic_blocks
        ∧ st'.reachable_instructions = st.reachable_instructions
        ∧ (st'.unreachable_jump_targets = st.unreachable_jump_targets
            ∨ st'.unreachable_jump_targets = st.unreachable_jump_targets ++ [i.argval])
        ∧ (i.opname ∈ jumps →
            st'.unreachable_jump_targets = st.unreachable_jump_targets ++ [i.argval])) := by
  unfold cfg_step at h
  split at h
  · rename_i hre
    left
    split at h
    · exact absurd h (by simp)
    · split at h
      · exact absurd h (by simp)
      · rename_i succs md view' hcomp
        refine ⟨succs, md, view', hre, ?_, ?_, ?_⟩ <;> rw [← Option.some_inj.mp h] <;> try rfl
  · rename_i hre
    right
    have hre' : is_reachable st i = false := by
      revert hre
      cases is_reachable st i <;> simp
    split at h
    · rename_i hj
      refine ⟨hre', ?_, ?_, Or.inr ?_, fun _ => ?_⟩ <;> rw [← Option.some_inj.mp h]
    · rename_i hj
      refine ⟨hre', ?_, ?_, Or.inl ?_, fun hmem => absurd hmem hj⟩ <;>
        rw [← Option.some_inj.mp h]

theorem cfg_step_reachable_mono (st : CFGState) (i : Instruction) (st' : CFGState)
    (h : cfg_step st i = some st') :
    ∀ x ∈ st.reachable_instructions, x ∈ st'.reachable_instructions := by
  intro x hx
  rcases cfg_step_cases st i st' h with ⟨_, _, _, _, _, hr, _⟩ | ⟨_, _, hr, _, _⟩
  · rw [hr]
    exact List.mem_append_left _ hx
  · rw [hr]
    exact hx

theorem cfg_step_nodes_of_ne (st : CFGState) (i : Instruction) (st' : CFGState)
    (h : cfg_step st i = some st') :
    ∀ bb ∈ st.basic_blocks, bb.instr.offset ≠ i.offset → bb ∈ st'.basic_blocks := by
  intro bb hbb hne
  rcases cfg_step_cases st i st' h with ⟨succs, md, view', _, hn, _, _⟩ | ⟨_, hn, _, _⟩
  · rw [hn]
    exact insertBB_mem_of_ne _ _ _ (insertBB_mem_of_ne _ _ _ hbb hne) hne
  · rw [hn]
    exact hbb

theorem cfg_step_nodes_from (st : CFGState) (i : Instruction) (st' : CFGState)
    (h : cfg_step st i = some st') :
    ∀ bb ∈ st'.basic_blocks, bb ∈ st.basic_blocks ∨ bb.instr.offset = i.offset := by
  intro bb hbb
  rcases cfg_step_cases st i st' h with ⟨succs, md, view', _, hn, _, _⟩ | ⟨_, hn, _, _⟩
  · rw [hn] at hbb
    rcases insertBB_mem_from _ _ _ hbb with h1 | h1
    · rcases insertBB_mem_from _ _ _ h1 with h2 | h2
      · exact Or.inl h2
      · exact Or.inr (by rw [h2]; rfl)
    · exact Or.inr (by rw [h1])
  · rw [hn] at hbb
    exact Or.inl hbb

theorem run_nodes_preserved (l : List Instruction) (st st' : CFGState)
    (hrun : run l st = some st') :
    ∀ bb ∈ st.basic_blocks, (∀ i ∈ l, bb.instr.offset ≠ i.offset) → bb ∈ st'.basic_blocks := by
  induction l generalizing st with
  | nil =>
    intro bb hbb _
    cases hrun
    exact hbb
  | cons i rest ih =>
    intro bb hbb hne
    unfold run at hrun
    rcases hstep : cfg_step st i with _ | st1 <;> rw [hstep] at hrun
    · exact absurd hrun (by simp)
    · exact ih st1 hrun bb
        (cfg_step_nodes_of_ne st i st1 hstep bb hbb (hne i (List.mem_cons_self i rest)))
        (fun j hj => hne j (List.mem_cons_of_mem i hj))

theorem run_nodes_from (l : List Instruction) (st st' : CFGState)
    (hrun : run l st = some st') :
    ∀ bb ∈ st'.basic_blocks, bb ∈ st.basic_blocks ∨ ∃ i ∈ l, bb.instr.offset = i.offset := by
  induction l generalizing st with
  | nil =>
    intro bb hbb
    cases hrun
    exact Or.inl hbb
  | cons i rest ih =>
    intro bb hbb
    unfold run at hrun
    rcases hstep : cfg_step st i with _ | st1 <;> rw [hstep] at hrun
    · exact absurd hrun (by simp)
    · rcases ih st1 hrun bb hbb with h1 | ⟨j, hj, hoff⟩
      · rcases cfg_step_nodes_from st i st1 hstep bb h1 with h2 | h2
        · exact Or.inl h2
        · exact Or.inr ⟨i, List.mem_cons_self i rest, h2⟩
      · exact Or.inr ⟨j, List.mem_cons_of_mem i hj, hoff⟩

theorem run_reachable_mono (l : List Instruction) (st st' : CFGState)
    (hrun : run l st = some st') :
    ∀ x ∈ st.reachable_instructions, x ∈ st'.reachable_instructions := by
  induction l generalizing st with
  | nil =>
    intro x hx
    cases hrun
    exact hx
  | cons i rest ih =>
    intro x hx
    unfold run at hrun
    rcases hstep : cfg_step st i with _ | st1 <;> rw [hstep] at hrun
    · exact absurd hrun (by simp)
    · exact ih st1 hrun x (cfg_step_reachable_mono st i st1 hstep x hx)

theorem is_reachable_of_mem (st : CFGState) (i : Instruction)
    (h : i.offset ∈ st.reachable_instructions) : is_reachable st i = true := by
  unfold is_reachable
  rw [if_pos h]

theorem cfg_step_processed (st : CFGState) (i : Instruction) (st' : CFGState)
    (h : cfg_step st i = some st') (hre : i.offset ∈ st.reachable_instructions) :
    ∃ bb ∈ st'.basic_blocks, bb.instr.offset = i.offset := by
  rcases cfg_step_cases st i st' h with ⟨succs, md, view', _, hn, _, _⟩ | ⟨hfalse, _, _⟩
  · refine ⟨{ instr := i, successors := succs, blockstack_view := view',
              path_metadata := md }, ?_, rfl⟩
    rw [hn]
    exact insertBB_self_mem _ _
  · rw [is_reachable_of_mem st i hre] at hfalse
    exact absurd hfalse (by simp)

theorem cfg_step_inv (st : CFGState) (i : Instruction) (st' : CFGState)
    (h : cfg_step st i = some st') (hinv : SuccsReachable st) : SuccsReachable st' := by
  intro bb hbb t ht
  rcases cfg_step_cases st i st' h with ⟨succs, md, view', _, hn, hr, _⟩ | ⟨_, hn, hr, _, _⟩
  · rw [hn] at hbb
    rw [hr]
    rcases insertBB_mem_from _ _ _ hbb with h1 | h1
    · rcases insertBB_mem_from _ _ _ h1 with h2 | h2
      · exact List.mem_append_left _ (hinv bb h2 t ht)
      · rw [h2] at ht
        exact absurd ht (List.not_mem_nil t)
    · rw [h1] at ht
      exact List.mem_append_right _ ht
  · rw [hn] at hbb
    rw [hr]
    exact hinv bb hbb t ht

theorem run_inv (l : List Instruction) (st st' : CFGState)
    (hrun : run l st = some st') (hinv : SuccsReachable st) : SuccsReachable st' := by
  induction l generalizing st with
  | nil =>
    cases hrun
    exact hinv
  | cons i rest ih =>
    unfold run at hrun
    rcases hstep : cfg_step st i with _ | st1 <;> rw [hstep] at hrun
    · exact absurd hrun (by simp)
    · exact ih st1 hrun (cfg_step_inv st i st1 hstep hinv)

theorem run_cons (i : Instruction) (rest : List Instruction) (st : CFGState) :
    run (i :: rest) st
      = (match cfg_step st i with
         | none => none
         | some st1 => run rest st1) := rfl

theorem run_append (l1 l2 : List Instruction) (st : CFGState) :
    run (l1 ++ l2) st = (run l1 st).bind (run l2) := by
  induction l1 generalizing st with
  | nil => rfl
  | cons i rest ih =>
    rw [List.cons_append, run_cons, run_cons]
    cases hstep : cfg_step st i with
    | none => rfl
    | some st1 => exact ih st1

/-- C6 counterexample: the single-instruction sequence `[JUMP_FORWARD at 0
with target 100]` is accepted by construction, yet the produced node at 0
lists successor 100, which is neither `-1` nor the offset of any node in the
final graph: closure fails for an accepted sequence. -/
theorem closure_counterexample :
    ∃ st, run [⟨"JUMP_FORWARD", 0, 100, false⟩] initState = some st
      ∧ ∃ bb ∈ st.basic_blocks, ∃ t ∈ bb.successors,
          t ≠ -1 ∧ ∀ bb2 ∈ st.basic_blocks, bb2.instr.offset ≠ t := by
  refine ⟨_, rfl, ?_⟩
  decide

theorem closure_core (l : List Instruction) (st st' : CFGState)
    (hrun : run l st = some st')
    (hsorted : l.Pairwise (fun a b => a.offset < b.offset))
    (hlo : ∀ bb ∈ st.basic_blocks, ∀ i ∈ l, bb.instr.offset < i.offset)
    (hinv : SuccsReachable st) :
    ∀ bb ∈ st'.basic_blocks, ∀ t ∈ bb.successors,
      (∃ i ∈ l, i.offset = t ∧ bb.instr.offset < t) →
      ∃ bb2 ∈ st'.basic_blocks, bb2.instr.offset = t := by
  induction l generalizing st with
  | nil =>
    intro bb _ t _ hex
    obtain ⟨i, hi, -⟩ := hex
    exact absurd hi (List.not_mem_nil i)
  | cons i rest ih =>
    rw [run_cons] at hrun
    rcases hstep : cfg_step st i with _ | st1 <;> rw [hstep] at hrun
    · exact absurd hrun (by simp)
    · have hhead : ∀ j ∈ rest, i.offset < j.offset := (List.pairwise_cons.mp hsorted).1
      have htail := (List.pairwise_cons.mp hsorted).2
      have hlo1 : ∀ bb ∈ st1.basic_blocks, ∀ j ∈ rest, bb.instr.offset < j.offset := by
        intro bb hbb j hj
        rcases cfg_step_nodes_from st i st1 hstep bb hbb with hmem | hoff
        · exact hlo bb hmem j (List.mem_cons_of_mem i hj)
        · rw [hoff]
          exact hhead j hj
      intro bb hbb t ht hex
      obtain ⟨j, hj, hjt, hbt⟩ := hex
      rcases List.mem_cons.mp hj with hji | hjrest
      · subst hji
        have hbb1 : bb ∈ st1.basic_blocks := by
          rcases run_nodes_from rest st1 st' hrun bb hbb with hmem | hoff
          · exact hmem
          · obtain ⟨k, hk, hoffk⟩ := hoff
            have h1 : t < k.offset := hjt ▸ hhead k hk
            have h2 : bb.instr.offset < k.offset := lt_trans hbt h1
            rw [hoffk] at h2
            exact absurd h2 (lt_irrefl _)
        have hbbst : bb ∈ st.basic_blocks := by
          rcases cfg_step_nodes_from st j st1 hstep bb hbb1 with hmem | hoff
          · exact hmem
          · rw [← hjt] at hbt
            rw [hoff] at hbt
            exact absurd hbt (lt_irrefl _)
        have hreach : t ∈ st.reachable_instructions := hinv bb hbbst t ht
        rw [← hjt] at hreach
        obtain ⟨bbn, hbbn, hbbnoff⟩ := cfg_step_processed st j st1 hstep hreach
        refine ⟨bbn, run_nodes_preserved rest st1 st' hrun bbn hbbn ?_, ?_⟩
        · intro k hk
          rw [hbbnoff]
          exact ne_of_lt (hhead k hk)
        · rw [hbbnoff]
          exact hjt
      · exact ih st1 hrun htail hlo1 (cfg_step_inv st i st1 hstep hinv)
          bb hbb t ht ⟨j, hjrest, hjt, hbt⟩

/-- C6 amended: a successor offset recorded on a node materializes as a node
whenever some instruction with that offset occurs later in the (offset-sorted)
sequence than the node's own instruction; `-1` always has its sentinel node.
A successor offset with no instruction, or one whose only instruction lies at
or before the node's instruction and was pruned, can dangle (see the
counterexample). -/
theorem closure_amended (l : List Instruction) (st' : CFGState)
    (hsorted : l.Pairwise (fun a b => a.offset < b.offset))
    (hpos : ∀ i ∈ l, (0 : Int) ≤ i.offset)
    (hrun : run l initState = some st') :
    ∀ bb ∈ st'.basic_blocks, ∀ t ∈ bb.successors,
      (∃ i ∈ l, i.offset = t ∧ bb.instr.offset < t) →
      ∃ bb2 ∈ st'.basic_blocks, bb2.instr.offset = t := by
  refine closure_core l initState st' hrun hsorted ?_ ?_
  · intro bb hbb i hi
    rcases List.mem_singleton.mp hbb with rfl
    calc (exit_basic_block.instr.offset : Int) = -1 := rfl
      _ < 0 := by norm_num
      _ ≤ i.offset := hpos i hi
  · intro bb hbb t ht
    rcases List.mem_singleton.mp hbb with rfl
    exact absurd ht (List.not_mem_nil t)

theorem closure_amended_witness :
    ∃ bb2 ∈ (CFGState.mk
        [exit_basic_block,
         ⟨⟨"LOAD_CONST", 0, 0, false⟩, [2], [], ⟨false, false, []⟩⟩,
         ⟨⟨"RETURN_VALUE", 2, 0, false⟩, [-1], [], ⟨true, false, []⟩⟩]
        [0, 2, -1] []).basic_blocks,
      bb2.instr.offset = 2 := by
  refine closure_amended [⟨"LOAD_CONST", 0, 0, false⟩, ⟨"RETURN_VALUE", 2, 0, false⟩]
    (CFGState.mk
      [exit_basic_block,
       ⟨⟨"LOAD_CONST", 0, 0, false⟩, [2], [], ⟨false, false, []⟩⟩,
       ⟨⟨"RETURN_VALUE", 2, 0, false⟩, [-1], [], ⟨true, false, []⟩⟩]
      [0, 2, -1] [])
    (by decide) (by decide) (by decide)
    ⟨⟨"LOAD_CONST", 0, 0, false⟩, [2], [], ⟨false, false, []⟩⟩ (by decide) 2 (by decide)
    ⟨⟨"RETURN_VALUE", 2, 0, false⟩, by decide, by decide, by decide⟩

theorem initState_inv : SuccsReachable initState := by
  intro bb hbb t ht
  rcases List.mem_singleton.mp hbb with rfl
  exact absurd ht (List.not_mem_nil t)

/-- C7: a scanned instruction that fails the reachability test (offset not in
the reachable set, and not an untainted jump target) is skipped: the step
leaves the node table unchanged, and when the instruction is a jump its
argument joins the unreachable-target set; no node with its offset exists in
the final graph, and when its offset never becomes reachable it appears in no
node's successor list either (the set `ops.jumps` is modelled from the spec,
`ops.py` not being among the sources). -/
theorem skipped_instruction_spec (l1 : List Instruction) (i : Instruction)
    (l2 : List Instruction) (st1 st' : CFGState)
    (hoff1 : ∀ j ∈ l1, j.offset ≠ i.offset)
    (hoff2 : ∀ j ∈ l2, j.offset ≠ i.offset)
    (hipos : (0 : Int) ≤ i.offset)
    (hrun1 : run l1 initState = some st1)
    (hskip : is_reachable st1 i = false)
    (hrunall : run (l1 ++ i :: l2) initState = some st') :
    (∃ st2, cfg_step st1 i = some st2
       ∧ st2.basic_blocks = st1.basic_blocks
       ∧ (i.opname ∈ jumps → i.argval ∈ st2.unreachable_jump_targets))
    ∧ (∀ bb ∈ st'.basic_blocks, bb.instr.offset ≠ i.offset)
    ∧ (i.offset ∉ st'.reachable_instructions →
        ∀ bb ∈ st'.basic_blocks, i.offset ∉ bb.successors) := by
  have hrun : run (i :: l2) st1 = some st' := by
    rw [run_append, hrun1] at hrunall
    exact hrunall
  rw [run_cons] at hrun
  rcases hstep : cfg_step st1 i with _ | st2 <;> rw [hstep] at hrun
  · exact absurd hrun (by simp)
  · rcases cfg_step_cases st1 i st2 hstep with ⟨_, _, _, htrue, -⟩ | ⟨-, hn, -, -, hju⟩
    · rw [hskip] at htrue
      exact absurd htrue (by simp)
    · refine ⟨⟨st2, rfl, hn, fun hm => ?_⟩, ?_, ?_⟩
      · rw [hju hm]
        exact List.mem_append_right _ (List.mem_singleton.mpr rfl)
      · intro bb hbb
        rcases run_nodes_from l2 st2 st' hrun bb hbb with hmem2 | ⟨k, hk, hoffk⟩
        · rw [hn] at hmem2
          rcases run_nodes_from l1 initState st1 hrun1 bb hmem2 with hmem0 | ⟨k, hk, hoffk⟩
          · rcases List.mem_singleton.mp hmem0 with rfl
            have hexit : exit_basic_block.instr.offset = -1 := rfl
            rw [hexit]
            intro heq
            rw [← heq] at hipos
            exact absurd hipos (by norm_num)
          · rw [hoffk]
            exact hoff1 k hk
        · rw [hoffk]
          exact hoff2 k hk
      · intro hnr bb hbb hmem
        have hinv' : SuccsReachable st' :=
          run_inv (l1 ++ i :: l2) initState st' hrunall initState_inv
        exact hnr (hinv' bb hbb i.offset hmem)

theorem skipped_instruction_spec_witness :
    (∃ st2, cfg_step ret_final_state ⟨"JUMP_FORWARD", 2, 6, false⟩ = some st2
       ∧ st2.basic_blocks = ret_final_state.basic_blocks
       ∧ ((Instruction.mk "JUMP_FORWARD" 2 6 false).opname ∈ jumps →
            (Instruction.mk "JUMP_FORWARD" 2 6 false).argval ∈ st2.unreachable_jump_targets))
    ∧ (∀ bb ∈ (CFGState.mk [exit_basic_block,
          ⟨⟨"RETURN_VALUE", 0, 0, false⟩, [-1], [], ⟨true, false, []⟩⟩] [0, -1] [6]).basic_blocks,
        bb.instr.offset ≠ (Instruction.mk "JUMP_FORWARD" 2 6 false).offset)
    ∧ ((Instruction.mk "JUMP_FORWARD" 2 6 false).offset
          ∉ (CFGState.mk [exit_basic_block,
              ⟨⟨"RETURN_VALUE", 0, 0, false⟩, [-1], [], ⟨true, false, []⟩⟩] [0, -1] [6]).reachable_instructions →
        ∀ bb ∈ (CFGState.mk [exit_basic_block,
            ⟨⟨"RETURN_VALUE", 0, 0, false⟩, [-1], [], ⟨true, false, []⟩⟩] [0, -1] [6]).basic_blocks,
          (Instruction.mk "JUMP_FORWARD" 2 6 false).offset ∉ bb.successors) :=
  by
  refine skipped_instruction_spec [⟨"RETURN_VALUE", 0, 0, false⟩] ⟨"JUMP_FORWARD", 2, 6, false⟩ []
    ret_final_state
    (CFGState.mk [exit_basic_block,
      ⟨⟨"RETURN_VALUE", 0, 0, false⟩, [-1], [], ⟨true, false, []⟩⟩] [0, -1] [6])
    ?_ ?_ ?_ ?_ ?_ ?_
  all_goals decide

end PyCFG
